import Mathlib

/-!
Verification of the robodiff repository's core against its specification.

The Go source is shallowly embedded: each Go function used by a claim is
translated into an executable Lean definition of the same name (up to
casing), operating on Lean models of the Go data types.  Go maps are
modelled as association lists (the claims under study are insensitive to
map iteration order), Go slices as `List`, and Go strings as Lean
`String` (or `List Char` where character-level reasoning is needed).
-/

/-! ### String helpers

Go's `strings` functions are modelled character-wise over the string's
character list (Lean's own `String.toLower` etc. are defined by recursion
on byte positions and do not reduce in the kernel).  The ASCII case
mapping of `Char.toLower`/`Char.toUpper` matches Go's for all inputs the
claims evaluate. -/

/-- Model of `strings.ToLower`. -/
def strToLower (s : String) : String := ⟨s.data.map Char.toLower⟩

/-- Model of `strings.ToUpper`. -/
def strToUpper (s : String) : String := ⟨s.data.map Char.toUpper⟩

/-- Model of `strings.Contains(s, string(c))` for a one-character needle. -/
def strContains (s : String) (c : Char) : Bool := s.data.contains c

/-- Model of `strings.TrimSpace`. -/
def strTrim (s : String) : String :=
  ⟨((s.data.dropWhile Char.isWhitespace).reverse.dropWhile Char.isWhitespace).reverse⟩

/-- Model of `strings.EqualFold` (ASCII simple case folding). -/
def strEqFold (a b : String) : Bool := strToLower a == strToLower b

namespace Rf

/-! ### Shared report-tree data model

Models the `Suite`/`Test` structures declared both in src/main.go and in
src/backend/diff/robot.go (identical shape for the fields the claims
touch: a test's extra fields in robot.go play no role in counting or
search). -/

/-- Model of the Go `Test` struct: name and status-attribute string. -/
structure TestR where
  name : String
  status : String
deriving DecidableEq

/-- Model of the Go `Suite` struct: name, child suites, tests and the
suite's own status-attribute string. -/
inductive Suite where
  | mk (name : String) (suites : List Suite) (tests : List TestR) (status : String)

/-- Model of the Go `Robot` struct: the single top-level suite. -/
structure Robot where
  suite : Suite

/-- Strong induction over suites: to prove a property of every suite it
is enough to prove it for a suite assuming it for all of its children. -/
theorem suite_strong_ind (P : Suite → Prop)
    (h : ∀ name suites tests status, (∀ c ∈ suites, P c) → P (.mk name suites tests status)) :
    ∀ s, P s := by
  have key : ∀ k s, sizeOf s ≤ k → P s := by
    intro k
    induction k with
    | zero =>
      intro s hs
      cases s with
      | mk n su te st => simp at hs
    | succ k ih =>
      intro s hs
      cases s with
      | mk n su te st =>
        apply h
        intro c hc
        apply ih
        have h2 := List.sizeOf_lt_of_mem hc
        simp at hs
        omega
  exact fun s => key (sizeOf s) s le_rfl

end Rf

namespace Diff

/-! ### Data model of the diff engine (src/main.go) -/

/-- Model of `ItemStatus` (src/main.go): outcome name (upper case) plus
lowercase outcome. -/
structure ItemStatus where
  name : String
  status : String
deriving DecidableEq

/-- The placeholder status appended for runs in which an item is absent
(src/main.go, `AddParsedOutput` and `addToStats`). -/
def naStatus : ItemStatus := ⟨"N/A", "not_available"⟩

/-- Model of `RowStatus.Status` (src/main.go lines 356-381): one pass over
the vector computes the three booleans, then the priority chain picks the
classification. -/
def rowStatus (statuses : List ItemStatus) : String :=
  let passed := statuses.any (fun st => st.name == "PASS")
  let failed := statuses.any (fun st => st.name == "FAIL")
  let missing := statuses.any (fun st => st.name == "N/A")
  if passed && failed then "diff"
  else if missing then "missing"
  else if passed then "all_passed"
  else "all_failed"

theorem rowStatus_any_pass_fail (v : List ItemStatus)
    (hp : v.any (fun st => st.name == "PASS") = true)
    (hf : v.any (fun st => st.name == "FAIL") = true) :
    rowStatus v = "diff" := by
  simp [rowStatus, hp, hf]

theorem exists_name_iff_any (v : List ItemStatus) (s : String) :
    (∃ st ∈ v, st.name = s) ↔ v.any (fun st => st.name == s) = true := by
  simp [List.any_eq_true]

/-- C2: classification priority of `RowStatus.Status`.  A vector is
classified `diff` exactly when it contains both a `PASS` and a `FAIL`
entry (placeholders and other outcomes notwithstanding), and `missing`
exactly when it contains a placeholder `N/A` entry but not both a `PASS`
and a `FAIL`. -/
theorem c2_status_priority (v : List ItemStatus) :
    (rowStatus v = "diff" ↔
      ((∃ st ∈ v, st.name = "PASS") ∧ (∃ st ∈ v, st.name = "FAIL")))
    ∧ (rowStatus v = "missing" ↔
      ((∃ st ∈ v, st.name = "N/A") ∧
        ¬((∃ st ∈ v, st.name = "PASS") ∧ (∃ st ∈ v, st.name = "FAIL")))) := by
  simp only [exists_name_iff_any]
  unfold rowStatus
  cases hp : v.any (fun st => st.name == "PASS") <;>
    cases hf : v.any (fun st => st.name == "FAIL") <;>
      cases hm : v.any (fun st => st.name == "N/A") <;> simp

/-- C3 counterexample: the claim states that a vector `[PASS, SKIP]`
(no placeholder, no pass+fail conflict, not all entries `PASS`) is
classified `all_failed`; the code classifies it `all_passed`. -/
theorem c3_counterexample :
    rowStatus [⟨"PASS", "pass"⟩, ⟨"SKIP", "skip"⟩] = "all_passed"
    ∧ "all_passed" ≠ "all_failed" := by
  constructor
  · rfl
  · decide

/-- C3 amended: for a vector with no placeholder and no pass+fail
conflict, `RowStatus.Status` returns `all_passed` iff the vector contains
at least one `PASS` entry, and `all_failed` otherwise (so `[PASS, SKIP]`
is `all_passed`, and a vector with no `PASS` entry is `all_failed`). -/
theorem c3_amended (v : List ItemStatus)
    (hna : ¬ ∃ st ∈ v, st.name = "N/A")
    (hconflict : ¬((∃ st ∈ v, st.name = "PASS") ∧ (∃ st ∈ v, st.name = "FAIL"))) :
    (rowStatus v = "all_passed" ↔ ∃ st ∈ v, st.name = "PASS")
    ∧ (rowStatus v = "all_failed" ↔ ¬ ∃ st ∈ v, st.name = "PASS") := by
  simp only [exists_name_iff_any] at *
  unfold rowStatus
  cases hp : v.any (fun st => st.name == "PASS") <;>
    cases hf : v.any (fun st => st.name == "FAIL") <;>
      cases hm : v.any (fun st => st.name == "N/A") <;>
        simp_all

theorem c3_witness :
    rowStatus [⟨"PASS", "pass"⟩, ⟨"SKIP", "skip"⟩] = "all_passed" :=
  (c3_amended [⟨"PASS", "pass"⟩, ⟨"SKIP", "skip"⟩]
    (by decide) (by decide)).1.mpr (by decide)

/-! ### DiffResults and AddParsedOutput (src/main.go lines 202-277)

The Go `map[string][]*ItemStatus` is modelled as an association list; the
claims under study only ever inspect the value stored at a key, never the
iteration order. -/

/-- Model of the `DiffResults` struct. -/
structure DiffResults where
  stats : List (String × List ItemStatus)
  columnNames : List String

/-- Model of `NewDiffResults` (capacity hints dropped). -/
def NewDiffResults : DiffResults := ⟨[], []⟩

/-- Reading `dr.stats[normalizedName]` from the Go map. -/
def lookupStats (stats : List (String × List ItemStatus)) (key : String) :
    Option (List ItemStatus) :=
  (stats.find? (fun kv => kv.1 == key)).map (fun kv => kv.2)

/-- Writing `dr.stats[normalizedName] = statuses` to the Go map. -/
def updateStats (stats : List (String × List ItemStatus)) (key : String)
    (v : List ItemStatus) : List (String × List ItemStatus) :=
  if stats.any (fun kv => kv.1 == key) then
    stats.map (fun kv => if kv.1 == key then (key, v) else kv)
  else stats ++ [(key, v)]

/-- The `(statusUpper, statusLower)` pair built in `addToStats`; the Go
switch on `"PASS"/"pass"/"FAIL"/"fail"` only caches the common cases and
agrees with the generic branch. -/
def itemStatusOf (status : String) : ItemStatus :=
  if status = "PASS" ∨ status = "pass" then ⟨"PASS", "pass"⟩
  else if status = "FAIL" ∨ status = "fail" then ⟨"FAIL", "fail"⟩
  else ⟨strToUpper status, strToLower status⟩

/-- Model of `DiffResults.addToStats` (src/main.go lines 246-277). -/
def addToStats (dr : DiffResults) (name status : String) : DiffResults :=
  let normalizedName := strToLower name
  let statuses :=
    match lookupStats dr.stats normalizedName with
    | some v => v
    | none => List.replicate dr.columnNames.length naStatus
  { dr with stats := updateStats dr.stats normalizedName (statuses ++ [itemStatusOf status]) }

mutual
/-- The sequence of `(longname, status)` pairs on which
`DiffResults.addSuite` (src/main.go lines 228-244) invokes `addToStats`,
in invocation order: the suite itself, then its child suites recursively,
then its own tests. -/
def collectItems : Rf.Suite → String → List (String × String)
  | .mk name suites tests status, parent =>
    let longname := if parent = "" then name else parent ++ "." ++ name
    (longname, status)
      :: (collectSuites suites longname
        ++ tests.map (fun t => (longname ++ "." ++ t.name, t.status)))
/-- Companion of `collectItems` for the loop over child suites. -/
def collectSuites : List Rf.Suite → String → List (String × String)
  | [], _ => []
  | s :: rest, p => collectItems s p ++ collectSuites rest p
end

/-- Model of `DiffResults.addSuite`: fold `addToStats` over the items of
the suite tree in invocation order. -/
def addSuite (dr : DiffResults) (s : Rf.Suite) (parent : String) : DiffResults :=
  (collectItems s parent).foldl (fun d it => addToStats d it.1 it.2) dr

/-- The backfill loop of `AddParsedOutput`: append placeholder statuses
while the vector is shorter than the column list. -/
def padTo (n : Nat) (l : List ItemStatus) : List ItemStatus :=
  l ++ List.replicate (n - l.length) naStatus

/-- Model of `DiffResults.AddParsedOutput` (src/main.go lines 215-226):
add the suite tree, append the column name, then backfill every vector
that is still short. -/
def AddParsedOutput (dr : DiffResults) (robot : Rf.Robot) (column : String) : DiffResults :=
  let dr1 := addSuite dr robot.suite ""
  let dr2 := { dr1 with columnNames := dr1.columnNames ++ [column] }
  { dr2 with stats := dr2.stats.map (fun kv => (kv.1, padTo dr2.columnNames.length kv.2)) }

/-- A sequence of `AddParsedOutput` calls starting from `NewDiffResults`. -/
def runAll (runs : List (Rf.Robot × String)) : DiffResults :=
  runs.foldl (fun dr rc => AddParsedOutput dr rc.1 rc.2) NewDiffResults

/-- The normalized long-names `addSuite` registers for a parsed output,
in registration order. -/
def itemNames (robot : Rf.Robot) : List String :=
  (collectItems robot.suite "").map (fun it => strToLower it.1)

theorem addToStats_columnNames (dr : DiffResults) (name status : String) :
    (addToStats dr name status).columnNames = dr.columnNames := by
  unfold addToStats
  cases lookupStats dr.stats (strToLower name) <;> rfl

theorem foldl_addToStats_columnNames (items : List (String × String)) :
    ∀ dr : DiffResults,
    (items.foldl (fun d it => addToStats d it.1 it.2) dr).columnNames = dr.columnNames := by
  induction items with
  | nil => intro dr; rfl
  | cons i rest ih =>
    intro dr
    rw [List.foldl_cons, ih, addToStats_columnNames]

theorem mem_updateStats {stats : List (String × List ItemStatus)} {key : String}
    {v : List ItemStatus} {kv : String × List ItemStatus}
    (h : kv ∈ updateStats stats key v) :
    kv = (key, v) ∨ (kv ∈ stats ∧ kv.1 ≠ key) := by
  unfold updateStats at h
  by_cases hc : stats.any (fun kv => kv.1 == key) = true
  · rw [if_pos hc] at h
    obtain ⟨kv0, hkv0, heq⟩ := List.mem_map.mp h
    by_cases hk : kv0.1 = key
    · left
      rw [if_pos (by simp [hk])] at heq
      exact heq.symm
    · right
      rw [if_neg (by simp [hk])] at heq
      subst heq
      exact ⟨hkv0, hk⟩
  · rw [if_neg hc] at h
    rcases List.mem_append.mp h with h1 | h1
    · right
      refine ⟨h1, ?_⟩
      intro hk
      exact hc (List.any_eq_true.mpr ⟨kv, h1, by simp [hk]⟩)
    · left
      simpa using h1

theorem lookupStats_some {stats : List (String × List ItemStatus)} {key : String}
    {v : List ItemStatus} (h : lookupStats stats key = some v) :
    (key, v) ∈ stats := by
  unfold lookupStats at h
  cases hf : stats.find? (fun kv => kv.1 == key) with
  | none => simp [hf] at h
  | some kv0 =>
    simp only [hf, Option.map_some] at h
    have hmem := List.mem_of_find?_eq_some hf
    have hpred := List.find?_some hf
    simp only [beq_iff_eq] at hpred
    have : kv0 = (key, v) := by
      cases kv0
      simp_all
    rw [← this]
    exact hmem

theorem foldl_addToStats_lengths (items : List (String × String)) :
    ∀ dr : DiffResults,
    (items.map (fun it => strToLower it.1)).Nodup →
    (∀ kv ∈ dr.stats, kv.2.length = dr.columnNames.length ∨
      (kv.2.length = dr.columnNames.length + 1 ∧
        kv.1 ∉ items.map (fun it => strToLower it.1))) →
    ∀ kv ∈ (items.foldl (fun d it => addToStats d it.1 it.2) dr).stats,
      kv.2.length = dr.columnNames.length ∨ kv.2.length = dr.columnNames.length + 1 := by
  induction items with
  | nil =>
    intro dr _ hpre kv hkv
    rcases hpre kv hkv with h | h
    · exact Or.inl h
    · exact Or.inr h.1
  | cons i rest ih =>
    intro dr hnodup hpre
    rw [List.map_cons, List.nodup_cons] at hnodup
    obtain ⟨hk0, hrest⟩ := hnodup
    rw [List.foldl_cons]
    have hcols := addToStats_columnNames dr i.1 i.2
    have hpre' : ∀ kv ∈ (addToStats dr i.1 i.2).stats,
        kv.2.length = (addToStats dr i.1 i.2).columnNames.length ∨
        (kv.2.length = (addToStats dr i.1 i.2).columnNames.length + 1 ∧
          kv.1 ∉ rest.map (fun it => strToLower it.1)) := by
      intro kv hkv
      rw [hcols]
      have hmem : kv ∈ updateStats dr.stats (strToLower i.1)
          ((match lookupStats dr.stats (strToLower i.1) with
            | some v => v
            | none => List.replicate dr.columnNames.length naStatus) ++ [itemStatusOf i.2]) := by
        simpa [addToStats] using hkv
      rcases mem_updateStats hmem with heq | ⟨hold, hne⟩
      · right
        subst heq
        constructor
        · cases hl : lookupStats dr.stats (strToLower i.1) with
          | none =>
            simp [hl, List.length_append, List.length_replicate]
          | some v =>
            have hin := lookupStats_some hl
            rcases hpre _ hin with h | ⟨_, habs⟩
            · simp only [hl]
              simp [List.length_append, h]
            · exact absurd (by simp) habs
        · exact hk0
      · rcases hpre kv hold with h | ⟨h1, h2⟩
        · exact Or.inl h
        · refine Or.inr ⟨h1, ?_⟩
          intro hc
          exact h2 (List.mem_cons_of_mem _ hc)
    have := ih (addToStats dr i.1 i.2) hrest hpre'
    rw [hcols] at this
    exact this

theorem padTo_length {n : Nat} {l : List ItemStatus} (h : l.length ≤ n) :
    (padTo n l).length = n := by
  unfold padTo
  rw [List.length_append, List.length_replicate]
  omega

/-- One `AddParsedOutput` call preserves the all-vectors-have-column-count
invariant, provided the added output registers no duplicate normalized
long-name. -/
theorem addParsedOutput_invariant (dr : DiffResults) (robot : Rf.Robot) (column : String)
    (hnodup : (itemNames robot).Nodup)
    (hinv : ∀ kv ∈ dr.stats, kv.2.length = dr.columnNames.length) :
    (AddParsedOutput dr robot column).columnNames.length = dr.columnNames.length + 1 ∧
    ∀ kv ∈ (AddParsedOutput dr robot column).stats,
      kv.2.length = dr.columnNames.length + 1 := by
  have hfold := foldl_addToStats_lengths (collectItems robot.suite "") dr hnodup
    (fun kv hkv => Or.inl (hinv kv hkv))
  have hcols := foldl_addToStats_columnNames (collectItems robot.suite "") dr
  constructor
  · simp [AddParsedOutput, addSuite, hcols]
  · intro kv hkv
    simp only [AddParsedOutput, addSuite, List.mem_map] at hkv
    obtain ⟨kv0, hkv0, heq⟩ := hkv
    rcases hfold kv0 hkv0 with h | h
    · rw [← heq]
      simp only [hcols, List.length_append, List.length_singleton]
      exact padTo_length (by omega)
    · rw [← heq]
      simp only [hcols, List.length_append, List.length_singleton]
      exact padTo_length (by omega)

/-- C1 amended: if every added output registers pairwise-distinct
normalized item long-names, then after the Nth `AddParsedOutput` call on a
`NewDiffResults` every status vector has length exactly N. -/
theorem c1_amended (runs : List (Rf.Robot × String))
    (h : ∀ rc ∈ runs, (itemNames rc.1).Nodup) :
    (runAll runs).columnNames.length = runs.length ∧
    ∀ kv ∈ (runAll runs).stats, kv.2.length = runs.length := by
  suffices key : ∀ (runs : List (Rf.Robot × String)) (dr : DiffResults),
      (∀ rc ∈ runs, (itemNames rc.1).Nodup) →
      (∀ kv ∈ dr.stats, kv.2.length = dr.columnNames.length) →
      (runs.foldl (fun dr rc => AddParsedOutput dr rc.1 rc.2) dr).columnNames.length =
        dr.columnNames.length + runs.length ∧
      ∀ kv ∈ (runs.foldl (fun dr rc => AddParsedOutput dr rc.1 rc.2) dr).stats,
        kv.2.length = dr.columnNames.length + runs.length by
    have := key runs NewDiffResults h (by intro kv hkv; simp [NewDiffResults] at hkv)
    simpa [runAll, NewDiffResults] using this
  intro runs
  induction runs with
  | nil =>
    intro dr _ hinv
    exact ⟨by simp, by simpa using hinv⟩
  | cons rc rest ih =>
    intro dr hnodup hinv
    have hstep := addParsedOutput_invariant dr rc.1 rc.2
      (hnodup rc (List.mem_cons_self rc rest)) hinv
    have hrec := ih (AddParsedOutput dr rc.1 rc.2)
      (fun x hx => hnodup x (List.mem_cons_of_mem rc hx))
      (fun kv hkv => by rw [hstep.1]; exact hstep.2 kv hkv)
    rw [List.foldl_cons]
    constructor
    · rw [hrec.1, hstep.1, List.length_cons]
      omega
    · intro kv hkv
      have hlen := hrec.2 kv hkv
      rw [hstep.1] at hlen
      rw [List.length_cons]
      omega

theorem c1_witness :
    (runAll [(⟨Rf.Suite.mk "s" [] [⟨"t1", "PASS"⟩, ⟨"t2", "FAIL"⟩] "FAIL"⟩, "run1"),
      (⟨Rf.Suite.mk "s" [] [⟨"t1", "PASS"⟩] "PASS"⟩, "run2")]).columnNames.length = 2 ∧
    ∀ kv ∈ (runAll [(⟨Rf.Suite.mk "s" [] [⟨"t1", "PASS"⟩, ⟨"t2", "FAIL"⟩] "FAIL"⟩, "run1"),
      (⟨Rf.Suite.mk "s" [] [⟨"t1", "PASS"⟩] "PASS"⟩, "run2")]).stats, kv.2.length = 2 :=
  c1_amended _ (by decide)

/-- C1 counterexample: one `AddParsedOutput` call (N = 1) on an output
whose suite "s" holds two tests "t1" and "T1" with the same normalized
long-name "s.t1"; the code appends both outcomes, so immediately after the
first call that item's vector has length 2, not 1. -/
theorem c1_counterexample :
    (runAll [(⟨Rf.Suite.mk "s" [] [⟨"t1", "PASS"⟩, ⟨"T1", "FAIL"⟩] "PASS"⟩, "run1")]).columnNames.length = 1 ∧
    (lookupStats (runAll [(⟨Rf.Suite.mk "s" [] [⟨"t1", "PASS"⟩, ⟨"T1", "FAIL"⟩] "PASS"⟩, "run1")]).stats
      "s.t1").map List.length = some 2 := by
  constructor
  · rfl
  · rfl

end Diff

namespace Parse

/-! ### CountTests (src/backend/diff/parse.go lines 56-75) -/

mutual
/-- Model of `CountTests`: recursively accumulate child-suite counts, then
walk the suite's own tests, incrementing `total` for every test and `pass`
or `fail` when the upper-cased status matches. -/
def CountTests : Rf.Suite → Nat × Nat × Nat
  | .mk _ suites tests _ =>
    let acc := CountTestsList suites
    tests.foldl (fun acc t =>
      let s := strToUpper t.status
      if s == "PASS" then (acc.1 + 1, acc.2.1, acc.2.2 + 1)
      else if s == "FAIL" then (acc.1, acc.2.1 + 1, acc.2.2 + 1)
      else (acc.1, acc.2.1, acc.2.2 + 1)) acc
/-- Companion of `CountTests` for the loop over child suites. -/
def CountTestsList : List Rf.Suite → Nat × Nat × Nat
  | [] => (0, 0, 0)
  | s :: rest =>
    let a := CountTests s
    let b := CountTestsList rest
    (a.1 + b.1, a.2.1 + b.2.1, a.2.2 + b.2.2)
end

mutual
/-- All tests of a suite tree: the suite's own tests first, then the tests
of its child suites in order (the traversal order of the search functions
in src/backend/store/store.go). -/
def allTests : Rf.Suite → List Rf.TestR
  | .mk _ suites tests _ => tests ++ allTestsList suites
/-- Companion of `allTests` for suite lists. -/
def allTestsList : List Rf.Suite → List Rf.TestR
  | [] => []
  | s :: rest => allTests s ++ allTestsList rest
end

/-- Upper-cased status equals "PASS" (the `CountTests` pass test). -/
def isPass (t : Rf.TestR) : Bool := strToUpper t.status == "PASS"

/-- Upper-cased status equals "FAIL" (the `CountTests` fail test). -/
def isFail (t : Rf.TestR) : Bool := strToUpper t.status == "FAIL"

theorem countTests_foldl (tests : List Rf.TestR) :
    ∀ acc : Nat × Nat × Nat,
    (tests.foldl (fun acc t =>
      let s := strToUpper t.status
      if s == "PASS" then (acc.1 + 1, acc.2.1, acc.2.2 + 1)
      else if s == "FAIL" then (acc.1, acc.2.1 + 1, acc.2.2 + 1)
      else (acc.1, acc.2.1, acc.2.2 + 1)) acc) =
      (acc.1 + tests.countP isPass, acc.2.1 + tests.countP isFail, acc.2.2 + tests.length) := by
  induction tests with
  | nil => intro acc; simp
  | cons t rest ih =>
    intro acc
    have hex : ¬((strToUpper t.status == "PASS") = true ∧ (strToUpper t.status == "FAIL") = true) := by
      rintro ⟨hp, hf⟩
      simp only [beq_iff_eq] at hp hf
      rw [hp] at hf
      exact absurd hf (by decide)
    rw [List.foldl_cons, ih]
    cases hp : (strToUpper t.status == "PASS") <;> cases hf : (strToUpper t.status == "FAIL")
    · simp [List.countP_cons, isPass, isFail, hp, hf, Prod.ext_iff]
      omega
    · simp [List.countP_cons, isPass, isFail, hp, hf, Prod.ext_iff]
      omega
    · simp [List.countP_cons, isPass, isFail, hp, hf, Prod.ext_iff]
      omega
    · exact absurd ⟨hp, hf⟩ hex

theorem countTests_eq_aux :
    ∀ s : Rf.Suite, CountTests s =
      ((allTests s).countP isPass, (allTests s).countP isFail, (allTests s).length) := by
  apply Rf.suite_strong_ind
    (fun s => CountTests s =
      ((allTests s).countP isPass, (allTests s).countP isFail, (allTests s).length))
  intro name suites tests status hchild
  have hlist : CountTestsList suites =
      ((allTestsList suites).countP isPass, (allTestsList suites).countP isFail,
        (allTestsList suites).length) := by
    clear name tests status
    induction suites with
    | nil => rfl
    | cons c rest ih =>
      rw [CountTestsList, allTestsList]
      rw [hchild c (List.mem_cons_self c rest), ih (fun x hx => hchild x (List.mem_cons_of_mem c hx))]
      simp [List.countP_append, List.length_append]
  rw [CountTests, allTests, hlist, countTests_foldl]
  simp [List.countP_append, List.length_append]
  omega

theorem countP_partition (l : List Rf.TestR) (p q : Rf.TestR → Bool)
    (hx : ∀ t ∈ l, ¬(p t = true ∧ q t = true)) :
    l.countP p + l.countP q + l.countP (fun t => !p t && !q t) = l.length := by
  induction l with
  | nil => simp
  | cons t rest ih =>
    have hrest := ih (fun x hx' => hx x (List.mem_cons_of_mem t hx'))
    have ht := hx t (List.mem_cons_self t rest)
    simp only [List.countP_cons, List.length_cons]
    cases hp : p t <;> cases hq : q t <;> simp_all <;> omega

/-- C9: `CountTests` counts pass/fail by upper-casing each test's status
(so "pass" and "PASS" both count), counts every test toward the total, and
thus returns pass + fail ≤ total with the difference being exactly the
tests whose upper-cased status is neither "PASS" nor "FAIL". -/
theorem c9_count_tests (s : Rf.Suite) :
    (CountTests s).1 = (allTests s).countP (fun t => strToUpper t.status == "PASS")
    ∧ (CountTests s).2.1 = (allTests s).countP (fun t => strToUpper t.status == "FAIL")
    ∧ (CountTests s).2.2 = (allTests s).length
    ∧ (CountTests s).1 + (CountTests s).2.1 ≤ (CountTests s).2.2
    ∧ (CountTests s).1 + (CountTests s).2.1 +
        (allTests s).countP
          (fun t => !(strToUpper t.status == "PASS") && !(strToUpper t.status == "FAIL"))
        = (CountTests s).2.2 := by
  have h := countTests_eq_aux s
  have hpart := countP_partition (allTests s) isPass isFail (by
    intro t _ hc
    obtain ⟨hp, hf⟩ := hc
    simp only [isPass, isFail, beq_iff_eq] at hp hf
    rw [hp] at hf
    exact absurd hf (by decide))
  rw [h]
  refine ⟨rfl, rfl, rfl, ?_, hpart⟩
  show (allTests s).countP isPass + (allTests s).countP isFail ≤ (allTests s).length
  omega

end Parse

namespace Store

/-! ### Fast statistics scan (src/backend/store/store.go lines 557-607)

The XML token stream consumed by `scanStatisticsStream` is modelled as a
list of abstract tokens: the start/end tags of the `statistics` element, a
whole decoded `stat` element (the Go code hands it to `DecodeElement`),
and any other token, which the scanner ignores. -/

/-- Model of the `robotStat` struct: the pass/fail/skip attributes and the
element's character-data name. -/
structure robotStat where
  pass : Nat
  fail : Nat
  skip : Nat
  name : String
deriving DecidableEq

/-- Abstract XML tokens as seen by `scanStatisticsStream`. -/
inductive XmlToken where
  | startStatistics
  | endStatistics
  | stat (st : robotStat)
  | other
deriving DecidableEq

/-- The "All Tests" test of the scanner:
`strings.EqualFold(strings.TrimSpace(st.Name), "All Tests")`. -/
def isAllTests (nm : String) : Bool := strEqFold (strTrim nm) "All Tests"

/-- Model of `scanStatisticsStream`: walk the tokens with the
`insideStats` flag and the first-`stat` fallback, return at the first
"All Tests" stat inside the statistics block, at the block's end tag, or
at end of input. -/
def scanStatisticsStream : List XmlToken → Bool → Option robotStat → Nat × Nat × Nat × Bool
  | [], _, fallback =>
    match fallback with
    | some st => (st.pass, st.fail, st.pass + st.fail + st.skip, true)
    | none => (0, 0, 0, false)
  | .startStatistics :: rest, _, fallback => scanStatisticsStream rest true fallback
  | .stat st :: rest, insideStats, fallback =>
    if insideStats then
      if isAllTests st.name then (st.pass, st.fail, st.pass + st.fail + st.skip, true)
      else scanStatisticsStream rest insideStats
        (match fallback with | none => some st | some f => some f)
    else scanStatisticsStream rest insideStats fallback
  | .endStatistics :: rest, insideStats, fallback =>
    if insideStats then
      match fallback with
      | some st => (st.pass, st.fail, st.pass + st.fail + st.skip, true)
      | none => (0, 0, 0, false)
    else scanStatisticsStream rest insideStats fallback
  | .other :: rest, insideStats, fallback => scanStatisticsStream rest insideStats fallback

/-- The `stat` elements contained in a token list, in order. -/
def sectionStats (toks : List XmlToken) : List robotStat :=
  toks.filterMap (fun t => match t with | .stat st => some st | _ => none)

theorem scan_skip_before (body : List XmlToken) :
    ∀ (rest : List XmlToken) (fb : Option robotStat),
    XmlToken.startStatistics ∉ body →
    scanStatisticsStream (body ++ rest) false fb = scanStatisticsStream rest false fb := by
  induction body with
  | nil => intro rest fb _; rfl
  | cons t ts ih =>
    intro rest fb hmem
    have ht : t ≠ XmlToken.startStatistics := fun h => hmem (h ▸ List.mem_cons_self t ts)
    have hts : XmlToken.startStatistics ∉ ts := fun h => hmem (List.mem_cons_of_mem t h)
    cases t with
    | startStatistics => exact absurd rfl ht
    | endStatistics =>
      rw [List.cons_append]
      simp only [scanStatisticsStream, if_neg (by decide : ¬(false = true))]
      exact ih rest fb hts
    | stat st =>
      rw [List.cons_append]
      simp only [scanStatisticsStream, if_neg (by decide : ¬(false = true))]
      exact ih rest fb hts
    | other =>
      rw [List.cons_append]
      simp only [scanStatisticsStream]
      exact ih rest fb hts

theorem scan_stat_inside (st : robotStat) (rest : List XmlToken) (fb : Option robotStat) :
    scanStatisticsStream (XmlToken.stat st :: rest) true fb =
      if isAllTests st.name then (st.pass, st.fail, st.pass + st.fail + st.skip, true)
      else scanStatisticsStream rest true
        (match fb with | none => some st | some f => some f) := by
  simp [scanStatisticsStream]

theorem scan_other_cons (rest : List XmlToken) (b : Bool) (fb : Option robotStat) :
    scanStatisticsStream (XmlToken.other :: rest) b fb = scanStatisticsStream rest b fb := by
  simp [scanStatisticsStream]

theorem scan_section (secToks : List XmlToken) :
    ∀ (pre post : List robotStat) (e : robotStat) (rest : List XmlToken) (fb : Option robotStat),
    (∀ t ∈ secToks, t = XmlToken.other ∨ ∃ st, t = XmlToken.stat st) →
    sectionStats secToks = pre ++ e :: post →
    (∀ st ∈ pre, isAllTests st.name = false) →
    isAllTests e.name = true →
    scanStatisticsStream (secToks ++ rest) true fb =
      (e.pass, e.fail, e.pass + e.fail + e.skip, true) := by
  induction secToks with
  | nil =>
    intro pre post e rest fb _ hsplit _ _
    exact absurd hsplit (by simp [sectionStats])
  | cons t ts ih =>
    intro pre post e rest fb hkinds hsplit hpre he
    have hts : ∀ t ∈ ts, t = XmlToken.other ∨ ∃ st, t = XmlToken.stat st :=
      fun x hx => hkinds x (List.mem_cons_of_mem t hx)
    rcases hkinds t (List.mem_cons_self t ts) with hother | ⟨st, hstat⟩
    · subst hother
      have hsec : sectionStats ts = pre ++ e :: post := by
        simpa [sectionStats] using hsplit
      rw [List.cons_append, scan_other_cons]
      exact ih pre post e rest fb hts hsec hpre he
    · subst hstat
      have hsec : st :: sectionStats ts = pre ++ e :: post := by
        simpa [sectionStats] using hsplit
      rw [List.cons_append, scan_stat_inside]
      cases pre with
      | nil =>
        have hst : st = e := by simpa using congrArg (fun l => l.head?) hsec
        subst hst
        rw [if_pos he]
      | cons p pre' =>
        have hst : st = p := by simpa using congrArg (fun l => l.head?) hsec
        subst hst
        have hsec' : sectionStats ts = pre' ++ e :: post := by
          simpa using congrArg List.tail hsec
        rw [if_neg (by simp [hpre st (List.mem_cons_self st pre')])]
        cases fb with
        | none =>
          exact ih pre' post e rest (some st) hts hsec'
            (fun x hx => hpre x (List.mem_cons_of_mem st hx)) he
        | some f =>
          exact ih pre' post e rest (some f) hts hsec'
            (fun x hx => hpre x (List.mem_cons_of_mem st hx)) he

/-- C4: fast-statistics equivalence.  For a well-formed document — a body
with no `statistics` start tag, followed by the statistics block whose
`stat` entries contain an "All Tests" aggregate (the first such entry)
whose pass/fail/skip attributes agree with the parsed tree, every test of
which has a PASS/FAIL/SKIP outcome — the scanner's (pass, fail, total)
triple equals the triple computed by `CountTests` on the parsed tree. -/
theorem c4_fast_stats_refinement
    (body secToks rest : List XmlToken) (tree : Rf.Suite)
    (pre post : List robotStat) (e : robotStat)
    (hbody : XmlToken.startStatistics ∉ body)
    (hkinds : ∀ t ∈ secToks, t = XmlToken.other ∨ ∃ st, t = XmlToken.stat st)
    (hsplit : sectionStats secToks = pre ++ e :: post)
    (hpre : ∀ st ∈ pre, isAllTests st.name = false)
    (he : isAllTests e.name = true)
    (hpass : e.pass = (Parse.CountTests tree).1)
    (hfail : e.fail = (Parse.CountTests tree).2.1)
    (hskip : e.skip = (Parse.allTests tree).countP (fun t => strToUpper t.status == "SKIP"))
    (hstatuses : ∀ t ∈ Parse.allTests tree,
      strToUpper t.status = "PASS" ∨ strToUpper t.status = "FAIL" ∨ strToUpper t.status = "SKIP") :
    scanStatisticsStream (body ++ XmlToken.startStatistics :: (secToks ++ rest)) false none =
      ((Parse.CountTests tree).1, (Parse.CountTests tree).2.1, (Parse.CountTests tree).2.2, true) := by
  rw [scan_skip_before body _ none hbody, scanStatisticsStream,
    scan_section secToks pre post e rest none hkinds hsplit hpre he]
  have hc := Parse.c9_count_tests tree
  obtain ⟨h1, h2, h3, _, h5⟩ := hc
  have hsk : e.skip = (Parse.allTests tree).countP
      (fun t => !(strToUpper t.status == "PASS") && !(strToUpper t.status == "FAIL")) := by
    rw [hskip]
    apply List.countP_congr
    intro t ht
    rcases hstatuses t ht with h | h | h <;> simp [h]
  rw [hpass, hfail, hsk]
  have : (Parse.CountTests tree).1 + (Parse.CountTests tree).2.1 +
      (Parse.allTests tree).countP
        (fun t => !(strToUpper t.status == "PASS") && !(strToUpper t.status == "FAIL")) =
      (Parse.CountTests tree).2.2 := h5
  rw [this]

theorem c4_witness :
    scanStatisticsStream
      ([XmlToken.other] ++ XmlToken.startStatistics ::
        ([XmlToken.other, XmlToken.stat ⟨1, 1, 1, "All Tests"⟩] ++
          [XmlToken.endStatistics, XmlToken.other])) false none =
      ((Parse.CountTests (Rf.Suite.mk "s" []
          [⟨"t1", "PASS"⟩, ⟨"t2", "fail"⟩, ⟨"t3", "SKIP"⟩] "FAIL")).1,
        (Parse.CountTests (Rf.Suite.mk "s" []
          [⟨"t1", "PASS"⟩, ⟨"t2", "fail"⟩, ⟨"t3", "SKIP"⟩] "FAIL")).2.1,
        (Parse.CountTests (Rf.Suite.mk "s" []
          [⟨"t1", "PASS"⟩, ⟨"t2", "fail"⟩, ⟨"t3", "SKIP"⟩] "FAIL")).2.2, true) :=
  c4_fast_stats_refinement
    [XmlToken.other] [XmlToken.other, XmlToken.stat ⟨1, 1, 1, "All Tests"⟩]
    [XmlToken.endStatistics, XmlToken.other]
    (Rf.Suite.mk "s" [] [⟨"t1", "PASS"⟩, ⟨"t2", "fail"⟩, ⟨"t3", "SKIP"⟩] "FAIL")
    [] [] ⟨1, 1, 1, "All Tests"⟩
    (by decide)
    (by intro t ht
        rcases List.mem_cons.mp ht with h | h
        · exact Or.inl h
        · have h2 : t = XmlToken.stat ⟨1, 1, 1, "All Tests"⟩ := by simpa using h
          exact Or.inr ⟨⟨1, 1, 1, "All Tests"⟩, h2⟩)
    (by decide) (by intro st hst; exact absurd hst (List.not_mem_nil st))
    (by decide) (by decide) (by decide) (by decide)
    (by decide)

end Store

namespace Store

/-! ### GetTestDetails search (src/backend/store/store.go lines 609-636,
908-946).  The Go functions return a pointer into the tree; the model
returns the test record itself, `none` standing for the
"test not found in run" error. -/

mutual
/-- Model of `findTestInSuite`: first test in the current suite whose name
matches case-insensitively, else recurse into the child suites. -/
def findTestInSuite : Rf.Suite → String → Option Rf.TestR
  | .mk _ suites tests _, testName =>
    match tests.find? (fun t => strEqFold t.name testName) with
    | some t => some t
    | none => findTestInSuiteList suites testName
/-- Companion of `findTestInSuite` for the loop over child suites. -/
def findTestInSuiteList : List Rf.Suite → String → Option Rf.TestR
  | [], _ => none
  | s :: rest, n =>
    match findTestInSuite s n with
    | some t => some t
    | none => findTestInSuiteList rest n
end

mutual
/-- Model of `findTestInSuiteByFullName` (`pre` is the Go `prefix`
parameter): match the dotted long-name `current ++ "." ++ test.Name`
case-insensitively, else recurse with the extended path. -/
def findTestInSuiteByFullName : Rf.Suite → String → String → Option Rf.TestR
  | .mk name suites tests _, fullName, pre =>
    match tests.find? (fun t =>
        strEqFold ((if pre = "" then name else pre ++ "." ++ name) ++ "." ++ t.name) fullName) with
    | some t => some t
    | none =>
      findTestInSuiteByFullNameList suites fullName
        (if pre = "" then name else pre ++ "." ++ name)
/-- Companion of `findTestInSuiteByFullName` for the loop over child
suites. -/
def findTestInSuiteByFullNameList : List Rf.Suite → String → String → Option Rf.TestR
  | [], _, _ => none
  | s :: rest, fullName, pre =>
    match findTestInSuiteByFullName s fullName pre with
    | some t => some t
    | none => findTestInSuiteByFullNameList rest fullName pre
end

/-- Model of `RunStore.GetTestDetails` on a loaded run: dotted-name search
first (only when the requested name contains a dot), then the bare-name
fallback; `none` models the NotFound error. -/
def GetTestDetails (robot : Rf.Robot) (testName : String) : Option Rf.TestR :=
  let byFull :=
    if strContains testName '.' then findTestInSuiteByFullName robot.suite testName ""
    else none
  match byFull with
  | some t => some t
  | none => findTestInSuite robot.suite testName

mutual
/-- All tests of a suite tree paired with their dotted long-names, in the
traversal order of `findTestInSuiteByFullName`. -/
def testsWithLongName : Rf.Suite → String → List (String × Rf.TestR)
  | .mk name suites tests _, pre =>
    tests.map (fun t => ((if pre = "" then name else pre ++ "." ++ name) ++ "." ++ t.name, t)) ++
      testsWithLongNameList suites (if pre = "" then name else pre ++ "." ++ name)
/-- Companion of `testsWithLongName` for suite lists. -/
def testsWithLongNameList : List Rf.Suite → String → List (String × Rf.TestR)
  | [], _ => []
  | s :: rest, pre => testsWithLongName s pre ++ testsWithLongNameList rest pre
end

theorem findTestInSuite_eq :
    ∀ (s : Rf.Suite) (n : String),
    findTestInSuite s n = (Parse.allTests s).find? (fun t => strEqFold t.name n) := by
  have key : ∀ s : Rf.Suite, ∀ n : String,
      findTestInSuite s n = (Parse.allTests s).find? (fun t => strEqFold t.name n) := by
    apply Rf.suite_strong_ind (fun s => ∀ n : String,
      findTestInSuite s n = (Parse.allTests s).find? (fun t => strEqFold t.name n))
    intro name suites tests status hchild n
    have hlist : findTestInSuiteList suites n =
        (Parse.allTestsList suites).find? (fun t => strEqFold t.name n) := by
      clear name tests status
      induction suites with
      | nil => rfl
      | cons c rest ih =>
        rw [findTestInSuiteList, Parse.allTestsList, List.find?_append,
          hchild c (List.mem_cons_self c rest),
          ih (fun x hx => hchild x (List.mem_cons_of_mem c hx))]
        cases (Parse.allTests c).find? (fun t => strEqFold t.name n) <;> simp [Option.or]
    rw [findTestInSuite, Parse.allTests, List.find?_append, hlist]
    cases tests.find? (fun t => strEqFold t.name n) <;> simp [Option.or]
  exact key

theorem find?_map_pair (tests : List Rf.TestR) (cur n : String) :
    (tests.map (fun t => (cur ++ "." ++ t.name, t))).find? (fun p => strEqFold p.1 n) =
      (tests.find? (fun t => strEqFold (cur ++ "." ++ t.name) n)).map
        (fun t => (cur ++ "." ++ t.name, t)) := by
  induction tests with
  | nil => rfl
  | cons t rest ih =>
    rw [List.map_cons]
    cases h : strEqFold (cur ++ "." ++ t.name) n
    · rw [List.find?_cons_of_neg _ (by simp [h]), List.find?_cons_of_neg _ (by simp [h]), ih]
    · rw [List.find?_cons_of_pos _ (by simp [h]), List.find?_cons_of_pos _ (by simp [h])]
      rfl

theorem findTestInSuiteByFullName_eq :
    ∀ (s : Rf.Suite) (n pre : String),
    findTestInSuiteByFullName s n pre =
      ((testsWithLongName s pre).find? (fun p => strEqFold p.1 n)).map (fun p => p.2) := by
  have key : ∀ s : Rf.Suite, ∀ n pre : String,
      findTestInSuiteByFullName s n pre =
        ((testsWithLongName s pre).find? (fun p => strEqFold p.1 n)).map (fun p => p.2) := by
    apply Rf.suite_strong_ind (fun s => ∀ n pre : String,
      findTestInSuiteByFullName s n pre =
        ((testsWithLongName s pre).find? (fun p => strEqFold p.1 n)).map (fun p => p.2))
    intro name suites tests status hchild n pre
    have hlist : ∀ cur : String, findTestInSuiteByFullNameList suites n cur =
        ((testsWithLongNameList suites cur).find? (fun p => strEqFold p.1 n)).map (fun p => p.2) := by
      clear name tests status pre
      induction suites with
      | nil => intro cur; rfl
      | cons c rest ih =>
        intro cur
        rw [findTestInSuiteByFullNameList, testsWithLongNameList, List.find?_append,
          hchild c (List.mem_cons_self c rest),
          ih (fun x hx => hchild x (List.mem_cons_of_mem c hx))]
        cases (testsWithLongName c cur).find? (fun p => strEqFold p.1 n) <;> simp [Option.or]
    rw [findTestInSuiteByFullName, testsWithLongName, List.find?_append, hlist,
      find?_map_pair]
    cases htf : tests.find? (fun t =>
        strEqFold ((if pre = "" then name else pre ++ "." ++ name) ++ "." ++ t.name) n) with
    | some t => simp [Option.or]
    | none => simp [Option.or]
  exact key

/-- C8: `GetTestDetails` searches by dotted long-name first (attempted
only when the requested name contains a dot), falls back to the
case-insensitive bare-name search when no dot-qualified match exists, and
reports NotFound exactly when neither search matches. -/
theorem c8_get_test_details (robot : Rf.Robot) (n : String) :
    (strContains n '.' = false →
      GetTestDetails robot n = (Parse.allTests robot.suite).find? (fun t => strEqFold t.name n))
    ∧ (∀ q, strContains n '.' = true →
        (testsWithLongName robot.suite "").find? (fun p => strEqFold p.1 n) = some q →
        GetTestDetails robot n = some q.2)
    ∧ ((testsWithLongName robot.suite "").find? (fun p => strEqFold p.1 n) = none →
        GetTestDetails robot n = (Parse.allTests robot.suite).find? (fun t => strEqFold t.name n))
    ∧ (GetTestDetails robot n = none ↔
        ((strContains n '.' = true →
            ∀ p ∈ testsWithLongName robot.suite "", strEqFold p.1 n = false)
          ∧ ∀ t ∈ Parse.allTests robot.suite, strEqFold t.name n = false)) := by
  unfold GetTestDetails
  rw [findTestInSuiteByFullName_eq, findTestInSuite_eq]
  cases hdot : strContains n '.' with
  | false =>
    refine ⟨fun _ => rfl, fun q hq => absurd hq (by simp), fun _ => rfl, ?_⟩
    simp only [if_neg (by simp [hdot] : ¬(strContains n '.' = true))]
    constructor
    · intro hnone
      refine ⟨fun h => absurd h (by simp [hdot]), ?_⟩
      intro t ht
      simpa using List.find?_eq_none.mp hnone t ht
    · intro ⟨_, hall⟩
      exact List.find?_eq_none.mpr (fun t ht => by simp [hall t ht])
  | true =>
    simp only [if_pos (by simp [hdot] : strContains n '.' = true)]
    cases hfind : (testsWithLongName robot.suite "").find? (fun p => strEqFold p.1 n) with
    | some q =>
      refine ⟨fun h => absurd h (by simp [hdot]), ?_, ?_, ?_⟩
      · intro q' _ hq'
        cases hq'
        rfl
      · intro hnone
        simp at hnone
      · constructor
        · intro habs
          simp at habs
        · intro ⟨hlong, _⟩
          have h1 : (testsWithLongName robot.suite "").find? (fun p => strEqFold p.1 n) = none :=
            List.find?_eq_none.mpr (fun p hp => by simp [hlong trivial p hp])
          rw [hfind] at h1
          simp at h1
    | none =>
      refine ⟨fun h => absurd h (by simp [hdot]), ?_, fun _ => rfl, ?_⟩
      · intro q' _ hq'
        exact Option.noConfusion hq'
      · constructor
        · intro hnone
          refine ⟨fun _ => ?_, fun t ht => by simpa using List.find?_eq_none.mp hnone t ht⟩
          intro p hp
          simpa using List.find?_eq_none.mp hfind p hp
        · intro ⟨_, hall⟩
          exact List.find?_eq_none.mpr (fun t ht => by simp [hall t ht])

theorem c8_witness :
    GetTestDetails ⟨Rf.Suite.mk "root" [Rf.Suite.mk "sub" [] [⟨"T", "PASS"⟩] "PASS"]
      [⟨"Top", "FAIL"⟩] "FAIL"⟩ "ROOT.sub.t" = some ⟨"T", "PASS"⟩ :=
  (c8_get_test_details ⟨Rf.Suite.mk "root" [Rf.Suite.mk "sub" [] [⟨"T", "PASS"⟩] "PASS"]
      [⟨"Top", "FAIL"⟩] "FAIL"⟩ "ROOT.sub.t").2.1
    ("root.sub.T", ⟨"T", "PASS"⟩) (by decide) (by decide)

end Store

namespace Rows

/-! ### Row selection (src/main.go lines 279-335)

`DiffResults.Rows` manipulates the stats-map keys purely through
`strings.Split(name, ".")`, `strings.Join`, `strings.HasPrefix` and
`strings.TrimPrefix`; a key is therefore modelled as its list of
characters, over which those functions are embedded directly.  The Go
code also sorts the key list before filtering, which changes only the
order of the returned rows, not membership, the subject of the claim. -/

/-- A stats-map key (a Go string) as its character list. -/
abbrev Name := List Char

/-- Model of `strings.Split(o, ".")`. -/
def splitDot : Name → List Name
  | [] => [[]]
  | c :: rest =>
    if c = '.' then [] :: splitDot rest
    else
      match splitDot rest with
      | [] => [[c]]
      | p :: ps => (c :: p) :: ps

/-- Model of `strings.Join(parts, ".")`. -/
def joinDot : List Name → Name
  | [] => []
  | [p] => p
  | p :: ps => p ++ '.' :: joinDot ps

/-- The parents marked for `o` by the `hasChildren` loop of `Rows`:
`strings.Join(parts[:i], ".")` for `i = 1 .. len(parts)-1`. -/
def strictParents (o : Name) : List Name :=
  (List.range ((splitDot o).length - 1)).map (fun j => joinDot ((splitDot o).take (j + 1)))

/-- `hasChildren[n]` after the marking loop over all known names. -/
def hasChildrenIn (names : List Name) (n : Name) : Bool :=
  names.any (fun o => decide (n ∈ strictParents o))

/-- One iteration of the inner loop of `Rows`: `o` is a direct dot-child
of `n` (prefix `n+"."` and dot-free remainder) that is itself a leaf. -/
def isDirectLeafChild (names : List Name) (n o : Name) : Bool :=
  decide ((n ++ ['.']) <+: o) && !((o.drop (n.length + 1)).contains '.')
    && !(hasChildrenIn names o)

/-- The row-inclusion test of `Rows`: leaves are kept, non-leaves are kept
exactly when some known name is a direct leaf child. -/
def includedRow (names : List Name) (n : Name) : Bool :=
  if hasChildrenIn names n then names.any (fun o => isDirectLeafChild names n o)
  else true

/-- The names appearing in the output of `Rows` (each kept name is wrapped
in a `RowStatus` with its vector; membership is on names). -/
def rowsKeys (names : List Name) : List Name := names.filter (includedRow names)

/-- The claim's "some other known name extends `n` with a dot". -/
def extendsWithDot (n o : Name) : Prop := ∃ rest, o = n ++ '.' :: rest

/-- The claim's "`n` is a leaf": no known name extends it with a dot. -/
def isLeafIn (names : List Name) (n : Name) : Prop := ¬ ∃ o ∈ names, extendsWithDot n o

theorem splitDot_ne_nil : ∀ l : Name, splitDot l ≠ [] := by
  intro l
  cases l with
  | nil => simp [splitDot]
  | cons c rest =>
    simp only [splitDot]
    by_cases h : c = '.'
    · simp [h]
    · simp only [if_neg h]
      cases splitDot rest <;> simp

theorem splitDot_cons_dot (rest : Name) : splitDot ('.' :: rest) = [] :: splitDot rest := by
  simp [splitDot]

theorem splitDot_cons_ne (c : Char) (rest : Name) (p : Name) (ps : List Name)
    (h : c ≠ '.') (hsp : splitDot rest = p :: ps) :
    splitDot (c :: rest) = (c :: p) :: ps := by
  simp [splitDot, h, hsp]

theorem joinDot_cons_cons (p q : Name) (ps : List Name) :
    joinDot (p :: q :: ps) = p ++ '.' :: joinDot (q :: ps) := by
  simp [joinDot]

theorem splitDot_append_dot : ∀ a b : Name, splitDot (a ++ '.' :: b) = splitDot a ++ splitDot b := by
  intro a
  induction a with
  | nil => intro b; simp [splitDot]
  | cons c a' ih =>
    intro b
    by_cases h : c = '.'
    · subst h
      rw [List.cons_append, splitDot_cons_dot, splitDot_cons_dot, ih]
      rfl
    · cases hsp : splitDot a' with
      | nil => exact absurd hsp (splitDot_ne_nil a')
      | cons p ps =>
        have harg : splitDot (a' ++ '.' :: b) = p :: (ps ++ splitDot b) := by
          rw [ih, hsp]
          rfl
        rw [List.cons_append, splitDot_cons_ne c _ p (ps ++ splitDot b) h harg,
          splitDot_cons_ne c a' p ps h hsp]
        rfl

theorem joinDot_splitDot : ∀ l : Name, joinDot (splitDot l) = l := by
  intro l
  induction l with
  | nil => rfl
  | cons c rest ih =>
    by_cases h : c = '.'
    · subst h
      rw [splitDot_cons_dot]
      cases hsp : splitDot rest with
      | nil => exact absurd hsp (splitDot_ne_nil rest)
      | cons p ps =>
        rw [hsp] at ih
        rw [joinDot_cons_cons, ih]
        rfl
    · cases hsp : splitDot rest with
      | nil => exact absurd hsp (splitDot_ne_nil rest)
      | cons p ps =>
        rw [splitDot_cons_ne c rest p ps h hsp]
        rw [hsp] at ih
        cases ps with
        | nil =>
          simp only [joinDot] at ih ⊢
          rw [ih]
        | cons p2 ps2 =>
          rw [joinDot_cons_cons]
          rw [joinDot_cons_cons] at ih
          rw [List.cons_append, ih]

theorem joinDot_take_drop :
    ∀ (i : Nat) (ps : List Name), 0 < i → i < ps.length →
    joinDot ps = joinDot (ps.take i) ++ '.' :: joinDot (ps.drop i) := by
  intro i
  induction i with
  | zero => intro ps h1 _; omega
  | succ k ih =>
    intro ps _ h2
    cases ps with
    | nil => simp at h2
    | cons p ps' =>
      cases k with
      | zero =>
        cases ps' with
        | nil => simp at h2
        | cons q ps'' =>
          rw [joinDot_cons_cons]
          simp [joinDot]
      | succ k' =>
        cases ps' with
        | nil => simp at h2
        | cons q ps'' =>
          have hih := ih (q :: ps'') (by omega) (by simp at h2 ⊢; omega)
          rw [List.take_succ_cons, List.take_succ_cons, List.drop_succ_cons,
            List.drop_succ_cons]
          rw [List.take_succ_cons, List.drop_succ_cons] at hih
          rw [joinDot_cons_cons, joinDot_cons_cons, hih]
          simp

theorem mem_strictParents (n o : Name) :
    n ∈ strictParents o ↔ ∃ rest, o = n ++ '.' :: rest := by
  unfold strictParents
  rw [List.mem_map]
  constructor
  · rintro ⟨j, hj, rfl⟩
    rw [List.mem_range] at hj
    refine ⟨joinDot ((splitDot o).drop (j + 1)), ?_⟩
    conv_lhs => rw [← joinDot_splitDot o]
    exact joinDot_take_drop (j + 1) (splitDot o) (by omega) (by omega)
  · rintro ⟨rest, rfl⟩
    have h1 : 0 < (splitDot n).length := List.length_pos.mpr (splitDot_ne_nil n)
    have h2 : 0 < (splitDot rest).length := List.length_pos.mpr (splitDot_ne_nil rest)
    refine ⟨(splitDot n).length - 1, ?_, ?_⟩
    · rw [List.mem_range, splitDot_append_dot, List.length_append]
      omega
    · rw [splitDot_append_dot]
      have h3 : (splitDot n).length - 1 + 1 = (splitDot n).length := by omega
      rw [h3, List.take_left]
      exact joinDot_splitDot n

theorem hasChildrenIn_iff (names : List Name) (n : Name) :
    hasChildrenIn names n = true ↔ ∃ o ∈ names, extendsWithDot n o := by
  unfold hasChildrenIn extendsWithDot
  rw [List.any_eq_true]
  constructor
  · rintro ⟨o, ho, hdec⟩
    exact ⟨o, ho, (mem_strictParents n o).mp (of_decide_eq_true hdec)⟩
  · rintro ⟨o, ho, hext⟩
    exact ⟨o, ho, decide_eq_true ((mem_strictParents n o).mpr hext)⟩

theorem drop_after_dot (n c : Name) : ((n ++ '.' :: c).drop (n.length + 1)) = c := by
  have h : n ++ '.' :: c = (n ++ ['.']) ++ c := by simp
  have h2 : (n ++ ['.']).length = n.length + 1 := by simp
  rw [h, ← h2, List.drop_left]

theorem isDirectLeafChild_iff (names : List Name) (n o : Name) :
    isDirectLeafChild names n o = true ↔
      ((∃ c, o = n ++ '.' :: c ∧ '.' ∉ c) ∧ isLeafIn names o) := by
  unfold isDirectLeafChild isLeafIn
  rw [Bool.and_eq_true, Bool.and_eq_true]
  constructor
  · rintro ⟨⟨hpref, hdot⟩, hleaf⟩
    obtain ⟨c, hc⟩ := of_decide_eq_true hpref
    have hoc : o = n ++ '.' :: c := by rw [← hc]; simp
    refine ⟨⟨c, hoc, ?_⟩, ?_⟩
    · intro hmem
      rw [hoc, drop_after_dot] at hdot
      simp [List.contains] at hdot
      exact hdot hmem
    · intro hex
      rw [(hasChildrenIn_iff names o).mpr hex] at hleaf
      simp at hleaf
  · rintro ⟨⟨c, rfl, hdot⟩, hleaf⟩
    refine ⟨⟨?_, ?_⟩, ?_⟩
    · exact decide_eq_true ⟨c, by simp⟩
    · rw [drop_after_dot]
      simp [List.contains]
      exact hdot
    · cases h : hasChildrenIn names (n ++ '.' :: c) with
      | false => rfl
      | true => exact absurd ((hasChildrenIn_iff names _).mp h) hleaf

theorem includedRow_iff (names : List Name) (n : Name) :
    includedRow names n = true ↔
      (isLeafIn names n ∨
        ∃ o ∈ names, (∃ c, o = n ++ '.' :: c ∧ '.' ∉ c) ∧ isLeafIn names o) := by
  unfold includedRow
  cases h : hasChildrenIn names n with
  | false =>
    simp only [Bool.false_eq_true, if_neg, not_false_iff, if_false]
    constructor
    · intro _
      left
      intro hex
      rw [(hasChildrenIn_iff names n).mpr hex] at h
      cases h
    · intro _
      trivial
  | true =>
    simp only [if_pos rfl, if_true]
    rw [List.any_eq_true]
    constructor
    · rintro ⟨o, ho, hdir⟩
      exact Or.inr ⟨o, ho, (isDirectLeafChild_iff names n o).mp hdir⟩
    · rintro (hleaf | ⟨o, ho, hdir⟩)
      · exact absurd ((hasChildrenIn_iff names n).mp h) hleaf
      · exact ⟨o, ho, (isDirectLeafChild_iff names n o).mpr hdir⟩

/-- C5: a name appears in the output of `Rows` iff it is a known name and
either no other known name extends it with a dot (it is a leaf), or some
known name is a direct dot-child of it (dot-free remainder) that is itself
a leaf. -/
theorem c5_rows_membership (names : List Name) (n : Name) :
    n ∈ rowsKeys names ↔
      (n ∈ names ∧ (isLeafIn names n ∨
        ∃ o ∈ names, (∃ c, o = n ++ '.' :: c ∧ '.' ∉ c) ∧ isLeafIn names o)) := by
  unfold rowsKeys
  rw [List.mem_filter]
  exact and_congr_right (fun _ => includedRow_iff names n)

end Rows

namespace Robot

/-! ### Order-preserving unmarshalling (src/backend/diff/robot.go)

The XML documents consumed by the custom `UnmarshalXML` methods are
modelled as trees of raw elements: each raw element is a child element of
a container together with its decoded attributes and its own children.
Elements whose decoding the claim does not touch (`status`, `msg`,
`return`) carry their decoded value directly, exactly what Go's
`DecodeElement` produces for them.  A container's unmarshal loop walks
its child list in document order; `d.Skip()` on an unknown element
corresponds to dropping that raw element. -/

/-- Model of the `Status` struct (robot.go): status/starttime/endtime
attributes. -/
structure StatusR where
  status : String
  startTime : String
  endTime : String
deriving DecidableEq

/-- The zero `Status` value a freshly reset container starts with. -/
def emptyStatus : StatusR := ⟨"", "", ""⟩

/-- Model of the `Message` struct. -/
structure MessageR where
  level : String
  timestamp : String
  text : String
deriving DecidableEq

/-- Model of the `Return` struct. -/
structure ReturnR where
  value : List String
  status : StatusR
deriving DecidableEq

mutual
/-- Model of the `Keyword` struct: attributes, per-kind child lists, args,
messages, status, and the order-preserving `Body`. -/
inductive Keyword where
  | mk (name ty : String) (keywords : List Keyword) (ifs : List If) (fors : List For)
      (args : List String) (msgs : List MessageR) (status : StatusR) (body : List BodyItem)
/-- Model of the `If` struct. -/
inductive If where
  | mk (branches : List Branch) (status : StatusR)
/-- Model of the `For` struct. -/
inductive For where
  | mk (flavor : String) (iters : List Iter) (vars vals : List String) (status : StatusR)
/-- Model of the `Branch` struct. -/
inductive Branch where
  | mk (ty cond : String) (keywords : List Keyword) (ifs : List If) (fors : List For)
      (ret : Option ReturnR) (status : StatusR) (body : List BodyItem)
/-- Model of the `Iter` struct. -/
inductive Iter where
  | mk (keywords : List Keyword) (ifs : List If) (fors : List For)
      (ret : Option ReturnR) (status : StatusR) (body : List BodyItem)
/-- Model of the `BodyItem` struct: exactly one of the three pointers is
set, so it is a tagged sum. -/
inductive BodyItem where
  | kw (k : Keyword)
  | ifItem (i : If)
  | forItem (f : For)
end

/-- Model of the `Test` struct of robot.go. -/
structure Test where
  name : String
  status : StatusR
  keywords : List Keyword
  ifs : List If
  fors : List For
  body : List BodyItem

/-- The `Body` list of a keyword. -/
def Keyword.body : Keyword → List BodyItem
  | .mk _ _ _ _ _ _ _ _ b => b

/-- A child element of a container in the source document, with its
decoded attributes and its own child elements. -/
inductive RawElem where
  | statusE (st : StatusR)
  | kwE (name ty : String) (children : List RawElem)
  | ifE (children : List RawElem)
  | forE (flavor : String) (children : List RawElem)
  | branchE (ty cond : String) (children : List RawElem)
  | iterE (children : List RawElem)
  | argE (v : String)
  | msgE (m : MessageR)
  | returnE (r : ReturnR)
  | varE (v : String)
  | valueE (v : String)
  | otherE (children : List RawElem)

/-- The struct-tag decoding of a non-slice `Status` field: every `status`
child element overwrites the field, so the last one wins. -/
def lastStatusOf (children : List RawElem) : StatusR :=
  children.foldl (fun acc e => match e with | .statusE st => st | _ => acc) emptyStatus

mutual
/-- Model of `Keyword.UnmarshalXML`: reset, read attributes, then walk the
children (the loop below). -/
def parseKeyword (name ty : String) (children : List RawElem) : Keyword :=
  parseKeywordLoop (Keyword.mk name ty [] [] [] [] [] emptyStatus []) children
termination_by sizeOf children + 1
/-- The token loop of `Keyword.UnmarshalXML`: kw/if/for children are
decoded and appended to their kind list and to `Body`; arg/msg/status are
decoded into their fields; anything else is skipped. -/
def parseKeywordLoop : Keyword → List RawElem → Keyword
  | k, [] => k
  | Keyword.mk nm ty kws ifs fors args msgs st body, e :: rest =>
    match e with
    | .kwE cn cty cc =>
      parseKeywordLoop (Keyword.mk nm ty (kws ++ [parseKeyword cn cty cc]) ifs fors args msgs st
        (body ++ [BodyItem.kw (parseKeyword cn cty cc)])) rest
    | .ifE cc =>
      parseKeywordLoop (Keyword.mk nm ty kws (ifs ++ [parseIf cc]) fors args msgs st
        (body ++ [BodyItem.ifItem (parseIf cc)])) rest
    | .forE fl cc =>
      parseKeywordLoop (Keyword.mk nm ty kws ifs (fors ++ [parseFor fl cc]) args msgs st
        (body ++ [BodyItem.forItem (parseFor fl cc)])) rest
    | .argE v =>
      parseKeywordLoop (Keyword.mk nm ty kws ifs fors (args ++ [v]) msgs st body) rest
    | .msgE m =>
      parseKeywordLoop (Keyword.mk nm ty kws ifs fors args (msgs ++ [m]) st body) rest
    | .statusE s =>
      parseKeywordLoop (Keyword.mk nm ty kws ifs fors args msgs s body) rest
    | _ => parseKeywordLoop (Keyword.mk nm ty kws ifs fors args msgs st body) rest
termination_by _k l => sizeOf l
/-- Model of `Branch.UnmarshalXML` after attribute extraction. -/
def parseBranch (ty cond : String) (children : List RawElem) : Branch :=
  parseBranchLoop (Branch.mk ty cond [] [] [] none emptyStatus []) children
termination_by sizeOf children + 1
/-- The token loop of `Branch.UnmarshalXML`. -/
def parseBranchLoop : Branch → List RawElem → Branch
  | b, [] => b
  | Branch.mk ty cond kws ifs fors ret st body, e :: rest =>
    match e with
    | .kwE cn cty cc =>
      parseBranchLoop (Branch.mk ty cond (kws ++ [parseKeyword cn cty cc]) ifs fors ret st
        (body ++ [BodyItem.kw (parseKeyword cn cty cc)])) rest
    | .ifE cc =>
      parseBranchLoop (Branch.mk ty cond kws (ifs ++ [parseIf cc]) fors ret st
        (body ++ [BodyItem.ifItem (parseIf cc)])) rest
    | .forE fl cc =>
      parseBranchLoop (Branch.mk ty cond kws ifs (fors ++ [parseFor fl cc]) ret st
        (body ++ [BodyItem.forItem (parseFor fl cc)])) rest
    | .returnE r =>
      parseBranchLoop (Branch.mk ty cond kws ifs fors (some r) st body) rest
    | .statusE s =>
      parseBranchLoop (Branch.mk ty cond kws ifs fors ret s body) rest
    | _ => parseBranchLoop (Branch.mk ty cond kws ifs fors ret st body) rest
termination_by _b l => sizeOf l
/-- Model of `Iter.UnmarshalXML`. -/
def parseIter (children : List RawElem) : Iter :=
  parseIterLoop (Iter.mk [] [] [] none emptyStatus []) children
termination_by sizeOf children + 1
/-- The token loop of `Iter.UnmarshalXML`. -/
def parseIterLoop : Iter → List RawElem → Iter
  | it, [] => it
  | Iter.mk kws ifs fors ret st body, e :: rest =>
    match e with
    | .kwE cn cty cc =>
      parseIterLoop (Iter.mk (kws ++ [parseKeyword cn cty cc]) ifs fors ret st
        (body ++ [BodyItem.kw (parseKeyword cn cty cc)])) rest
    | .ifE cc =>
      parseIterLoop (Iter.mk kws (ifs ++ [parseIf cc]) fors ret st
        (body ++ [BodyItem.ifItem (parseIf cc)])) rest
    | .forE fl cc =>
      parseIterLoop (Iter.mk kws ifs (fors ++ [parseFor fl cc]) ret st
        (body ++ [BodyItem.forItem (parseFor fl cc)])) rest
    | .returnE r =>
      parseIterLoop (Iter.mk kws ifs fors (some r) st body) rest
    | .statusE s =>
      parseIterLoop (Iter.mk kws ifs fors ret s body) rest
    | _ => parseIterLoop (Iter.mk kws ifs fors ret st body) rest
termination_by _it l => sizeOf l
/-- Struct-tag decoding of `If` (no custom unmarshaller): collect the
`branch` children in order, last `status` wins, everything else skipped. -/
def parseIf (children : List RawElem) : If :=
  If.mk (parseBranchList children) (lastStatusOf children)
termination_by sizeOf children + 1
/-- Struct-tag decoding of `For`: flavor attribute, `iter` children in
order, `var`/`value` children collected, last `status` wins. -/
def parseFor (flavor : String) (children : List RawElem) : For :=
  For.mk flavor (parseIterList children)
    (children.filterMap (fun e => match e with | .varE v => some v | _ => none))
    (children.filterMap (fun e => match e with | .valueE v => some v | _ => none))
    (lastStatusOf children)
termination_by sizeOf children + 1
/-- The `branch` children of an element, decoded in order. -/
def parseBranchList : List RawElem → List Branch
  | [] => []
  | .branchE ty cond cc :: rest => parseBranch ty cond cc :: parseBranchList rest
  | _ :: rest => parseBranchList rest
termination_by l => sizeOf l
/-- The `iter` children of an element, decoded in order. -/
def parseIterList : List RawElem → List Iter
  | [] => []
  | .iterE cc :: rest => parseIter cc :: parseIterList rest
  | _ :: rest => parseIterList rest
termination_by l => sizeOf l
end

/-- The token loop of `Test.UnmarshalXML`: status is decoded into the
field; kw/if/for children are appended to their kind list and to `Body`;
anything else is skipped. -/
def parseTestLoop : Test → List RawElem → Test
  | t, [] => t
  | t, e :: rest =>
    match e with
    | .statusE s => parseTestLoop { t with status := s } rest
    | .kwE cn cty cc =>
      parseTestLoop { t with
        keywords := t.keywords ++ [parseKeyword cn cty cc],
        body := t.body ++ [BodyItem.kw (parseKeyword cn cty cc)] } rest
    | .ifE cc =>
      parseTestLoop { t with
        ifs := t.ifs ++ [parseIf cc],
        body := t.body ++ [BodyItem.ifItem (parseIf cc)] } rest
    | .forE fl cc =>
      parseTestLoop { t with
        fors := t.fors ++ [parseFor fl cc],
        body := t.body ++ [BodyItem.forItem (parseFor fl cc)] } rest
    | _ => parseTestLoop t rest

/-- Model of `Test.UnmarshalXML`: reset, read the name attribute, then
walk the children. -/
def parseTest (name : String) (children : List RawElem) : Test :=
  parseTestLoop ⟨name, emptyStatus, [], [], [], []⟩ children

/-- The Body entry a raw child element contributes to a test or keyword
container: `kw`, `if` and `for` children are parsed and tagged, all other
children contribute nothing. -/
def bodyChildOf : RawElem → Option BodyItem
  | .kwE cn cty cc => some (BodyItem.kw (parseKeyword cn cty cc))
  | .ifE cc => some (BodyItem.ifItem (parseIf cc))
  | .forE fl cc => some (BodyItem.forItem (parseFor fl cc))
  | _ => none

theorem parseTestLoop_body (cs : List RawElem) :
    ∀ t : Test, (parseTestLoop t cs).body = t.body ++ cs.filterMap bodyChildOf := by
  induction cs with
  | nil => intro t; simp [parseTestLoop]
  | cons e rest ih =>
    intro t
    cases e <;> simp [parseTestLoop, bodyChildOf, ih]

theorem parseKeywordLoop_body (cs : List RawElem) :
    ∀ k : Keyword, (parseKeywordLoop k cs).body = k.body ++ cs.filterMap bodyChildOf := by
  induction cs with
  | nil => intro k; simp [parseKeywordLoop]
  | cons e rest ih =>
    intro k
    cases k with
    | mk nm ty kws ifs fors args msgs st body =>
      cases e <;> simp only [parseKeywordLoop] <;> rw [ih] <;>
        simp [Keyword.body, bodyChildOf]

/-- C6: order preservation of the unmarshal loops.  For every test or
keyword container, the parsed `Body` is exactly the list of the
container's kw/if/for children, each parsed and tagged by kind, in the
order the child elements appear in the source document: no such child is
dropped, and re-serializing the `Body` sequence reproduces the original
sibling order. -/
theorem c6_body_order :
    (∀ (name : String) (children : List RawElem),
      (parseTest name children).body = children.filterMap bodyChildOf)
    ∧ (∀ (name ty : String) (children : List RawElem),
      (parseKeyword name ty children).body = children.filterMap bodyChildOf) := by
  constructor
  · intro name children
    rw [parseTest, parseTestLoop_body]
    rfl
  · intro name ty children
    rw [parseKeyword, parseKeywordLoop_body]
    rfl

end Robot

namespace Store

/-! ### DeleteRuns / RenameRun path safety (src/backend/store/store.go
lines 684-750, 752-831, 846-893)

Filesystem paths are modelled as lists of segments (the Go code touches
paths only through `Clean`, `Join`, `Dir` and separator-aware prefix
checks, which act on segment boundaries; `runtime.GOOS` is linux, so the
darwin case-insensitive branches are dead code).  `filepath.Abs` is the
identity on the already-absolute catalog paths, and
`filepath.EvalSymlinks` with its on-error fallback is the `resolve`
parameter.  Removals and renames are recorded instead of executed, and a
recorded removal is assumed to succeed (the `os.IsNotExist` skip is not
modelled). -/

/-- A cleaned absolute path as its list of segments. -/
abbrev Path := List String

/-- Model of `samePath` on cleaned paths (linux branch). -/
def samePath (a b : Path) : Bool := a == b

/-- Model of `isSubpath` (linux branch): equal after cleaning, or the
root plus a trailing separator is a prefix — on segments, a list prefix. -/
def isSubpath (root p : Path) : Bool := samePath root p || decide (root <+: p)

/-- The recursive worker of `uniqueNonEmptyStrings`: Go's loop with its
`seen` set, keeping first occurrences of trimmed non-empty ids. -/
def uniqueGo (seen : List String) : List String → List String
  | [] => []
  | id :: rest =>
    if strTrim id = "" then uniqueGo seen rest
    else if strTrim id ∈ seen then uniqueGo seen rest
    else strTrim id :: uniqueGo (strTrim id :: seen) rest

/-- Model of `uniqueNonEmptyStrings`. -/
def uniqueNonEmptyStrings (ids : List String) : List String := uniqueGo [] ids

/-- Reading `s.runs[id]` and taking the entry's absolute path. -/
def lookupRun (entries : List (String × Path)) (id : String) : Option Path :=
  (entries.find? (fun kv => kv.1 == id)).map (fun kv => kv.2)

/-- A recorded destructive filesystem operation of `DeleteRuns`. -/
inductive Removal where
  | file (p : Path)
  | dir (p : Path)
deriving DecidableEq

/-- The path-safety error of `DeleteRuns`
("refusing to delete outside runs root"). -/
inductive DelErr where
  | outsideRoot (p : Path)
deriving DecidableEq

/-- The deletion loop of `DeleteRuns` over the resolved run files:
returns the count of removals performed, the removals in order, and the
error that stopped the loop, if any. -/
def deleteLoop (resolve : Path → Path) (rootReal : Path) :
    List Path → Nat → List Removal → Nat × List Removal × Option DelErr
  | [], deleted, acc => (deleted, acc, none)
  | f :: rest, deleted, acc =>
    if ¬ isSubpath rootReal ((resolve f).dropLast) then
      (deleted, acc, some (DelErr.outsideRoot ((resolve f).dropLast)))
    else if samePath rootReal ((resolve f).dropLast) then
      if ¬ isSubpath rootReal (resolve f) then
        (deleted, acc, some (DelErr.outsideRoot (resolve f)))
      else deleteLoop resolve rootReal rest (deleted + 1) (acc ++ [Removal.file (resolve f)])
    else deleteLoop resolve rootReal rest (deleted + 1) (acc ++ [Removal.dir ((resolve f).dropLast)])

/-- Model of `RunStore.DeleteRuns`: sanitize the ids, resolve the root,
collect the known entries' paths, then run the deletion loop. -/
def DeleteRuns (resolve : Path → Path) (root : Path) (entries : List (String × Path))
    (ids : List String) : Nat × List Removal × Option DelErr :=
  if (uniqueNonEmptyStrings ids).length = 0 then (0, [], none)
  else deleteLoop resolve (resolve root)
    ((uniqueNonEmptyStrings ids).filterMap (lookupRun entries)) 0 []

/-- Model of `strings.HasSuffix`. -/
def strHasSuffix (s suf : String) : Bool := suf.data.isSuffixOf s.data

/-- Model of `normalizeRunName`: trim, strip a case-insensitive ".xml"
extension (re-trimming), then reject empty, ".", "..", separators and
NUL. -/
def normalizeRunName (name : String) : Option String :=
  let n1 := strTrim name
  let n2 := if strHasSuffix (strToLower n1) ".xml"
            then strTrim ⟨n1.data.take (n1.data.length - 4)⟩ else n1
  if n2 = "" ∨ n2 = "." ∨ n2 = ".." then none
  else if strContains n2 '/' ∨ strContains n2 '\\' then none
  else if n2.data.contains (Char.ofNat 0) then none
  else some n2

/-- The failure cases of `RenameRun`. -/
inductive RenErr where
  | idRequired
  | invalidName
  | notFound
  | outsideRoot (p : Path)
  | targetExists (p : Path)
deriving DecidableEq

/-- Model of `RunStore.RenameRun`: the first component records the
performed rename (source, target), `none` when nothing was renamed; the
second the error returned, if any.  `targetExists` models the `os.Stat`
existence probe of the target. -/
def RenameRun (resolve : Path → Path) (root : Path) (entries : List (String × Path))
    (targetExists : Path → Bool) (id newName : String) :
    Option (Path × Path) × Option RenErr :=
  if strTrim id = "" then (none, some RenErr.idRequired)
  else
    match normalizeRunName newName with
    | none => (none, some RenErr.invalidName)
    | some normalized =>
      match lookupRun entries (strTrim id) with
      | none => (none, some RenErr.notFound)
      | some abs =>
        if ¬ isSubpath (resolve root) ((resolve abs).dropLast) then
          (none, some (RenErr.outsideRoot ((resolve abs).dropLast)))
        else if samePath (resolve root) ((resolve abs).dropLast) then
          if samePath (resolve abs) (resolve root ++ [normalized ++ ".xml"]) then (none, none)
          else if ¬ isSubpath (resolve root) (resolve root ++ [normalized ++ ".xml"]) then
            (none, some (RenErr.outsideRoot (resolve root ++ [normalized ++ ".xml"])))
          else if targetExists (resolve root ++ [normalized ++ ".xml"]) then
            (none, some (RenErr.targetExists (resolve root ++ [normalized ++ ".xml"])))
          else (some (resolve abs, resolve root ++ [normalized ++ ".xml"]), none)
        else
          if samePath ((resolve abs).dropLast) ((resolve abs).dropLast.dropLast ++ [normalized]) then
            (none, none)
          else if ¬ isSubpath (resolve root) ((resolve abs).dropLast.dropLast)
              ∨ ¬ isSubpath (resolve root) ((resolve abs).dropLast.dropLast ++ [normalized]) then
            (none, some (RenErr.outsideRoot ((resolve abs).dropLast.dropLast ++ [normalized])))
          else if targetExists ((resolve abs).dropLast.dropLast ++ [normalized]) then
            (none, some (RenErr.targetExists ((resolve abs).dropLast.dropLast ++ [normalized])))
          else (some ((resolve abs).dropLast, (resolve abs).dropLast.dropLast ++ [normalized]), none)

/-- The removal `DeleteRuns` performs for a safe run file: the lone XML
file when it sits directly in the root, else its containing folder. -/
def removalOf (resolve : Path → Path) (rootReal : Path) (f : Path) : Removal :=
  if samePath rootReal ((resolve f).dropLast) then Removal.file (resolve f)
  else Removal.dir ((resolve f).dropLast)

end Store

namespace Store

theorem isSubpath_of_samePath_dropLast {r p : Path} (h : samePath r p.dropLast = true) :
    isSubpath r p = true := by
  simp only [samePath, beq_iff_eq] at h
  by_cases hp : p = []
  · subst hp
    simp only [List.dropLast_nil] at h
    subst h
    rfl
  · subst h
    have hpref : p.dropLast <+: p := ⟨[p.getLast hp], List.dropLast_append_getLast hp⟩
    simp [isSubpath, hpref]

theorem deleteLoop_split (resolve : Path → Path) (rootReal : Path) (post : List Path)
    (bad : Path) (hbad : isSubpath rootReal ((resolve bad).dropLast) = false) :
    ∀ (pre : List Path) (d : Nat) (acc : List Removal),
    (∀ f ∈ pre, isSubpath rootReal ((resolve f).dropLast) = true) →
    deleteLoop resolve rootReal (pre ++ bad :: post) d acc =
      (d + pre.length, acc ++ pre.map (removalOf resolve rootReal),
        some (DelErr.outsideRoot ((resolve bad).dropLast))) := by
  intro pre
  induction pre with
  | nil =>
    intro d acc _
    rw [List.nil_append]
    simp [deleteLoop, hbad]
  | cons f pre' ih =>
    intro d acc hpre
    have hf := hpre f (List.mem_cons_self f pre')
    have hpre' : ∀ x ∈ pre', isSubpath rootReal ((resolve x).dropLast) = true :=
      fun x hx => hpre x (List.mem_cons_of_mem f hx)
    rw [List.cons_append]
    by_cases hsame : samePath rootReal ((resolve f).dropLast) = true
    · have hfile := isSubpath_of_samePath_dropLast hsame
      simp only [deleteLoop, hf, hsame, hfile, not_true, if_neg, if_pos,
        Bool.true_eq_false, not_false_iff, if_false, if_true]
      rw [ih (d + 1) (acc ++ [Removal.file (resolve f)]) hpre']
      have harith : d + 1 + pre'.length = d + (pre'.length + 1) := by omega
      rw [List.length_cons, harith]
      simp [removalOf, hsame, List.append_assoc]
    · simp only [deleteLoop, hf, hsame, not_true, if_neg, Bool.true_eq_false,
        not_false_iff, if_false, if_true]
      rw [ih (d + 1) (acc ++ [Removal.dir ((resolve f).dropLast)]) hpre']
      have harith : d + 1 + pre'.length = d + (pre'.length + 1) := by omega
      rw [List.length_cons, harith]
      simp [removalOf, hsame, List.append_assoc]

/-- C7 amended, deletion half: when the resolved run files of the batch
are a safe prefix followed by a run resolving outside the root, the call
fails with the path-safety error, removes nothing for the offending run
or any later id, and has performed exactly the removals of the safe
prefix (which persist). -/
theorem deleteRuns_amended (resolve : Path → Path) (root : Path)
    (entries : List (String × Path)) (ids : List String)
    (pre post : List Path) (bad : Path)
    (hsplit : (uniqueNonEmptyStrings ids).filterMap (lookupRun entries) = pre ++ bad :: post)
    (hpre : ∀ f ∈ pre, isSubpath (resolve root) ((resolve f).dropLast) = true)
    (hbad : isSubpath (resolve root) ((resolve bad).dropLast) = false) :
    DeleteRuns resolve root entries ids =
      (pre.length, pre.map (removalOf resolve (resolve root)),
        some (DelErr.outsideRoot ((resolve bad).dropLast))) := by
  unfold DeleteRuns
  have hne : (uniqueNonEmptyStrings ids).length ≠ 0 := by
    intro h0
    rw [List.length_eq_zero] at h0
    rw [h0] at hsplit
    simp at hsplit
  rw [if_neg hne, hsplit, deleteLoop_split resolve (resolve root) post bad hbad pre 0 [] hpre]
  simp

/-- C7 amended, rename half: renaming a run whose resolved real path lies
outside the configured root fails with the path-safety error and performs
no rename. -/
theorem renameRun_amended (resolve : Path → Path) (root : Path)
    (entries : List (String × Path)) (targetExists : Path → Bool) (id newName : String)
    (abs : Path) (nm : String)
    (hid : strTrim id ≠ "")
    (hnorm : normalizeRunName newName = some nm)
    (hlook : lookupRun entries (strTrim id) = some abs)
    (hout : isSubpath (resolve root) ((resolve abs).dropLast) = false) :
    RenameRun resolve root entries targetExists id newName =
      (none, some (RenErr.outsideRoot ((resolve abs).dropLast))) := by
  unfold RenameRun
  rw [if_neg hid]
  simp only [hnorm, hlook, hout]
  simp

end Store

namespace Store

/-- C7 counterexample: a `DeleteRuns` batch of two runs, the first safe
under the root and the second resolving outside it, returns the
path-safety error yet has already removed the first run's folder — the
filesystem is not left untouched for the other ids of the batch. -/
theorem c7_counterexample :
    DeleteRuns (fun p => p) ["runs"]
      [("good", ["runs", "a", "output.xml"]), ("bad", ["x", "b", "output.xml"])]
      ["good", "bad"] =
      (1, [Removal.dir ["runs", "a"]], some (DelErr.outsideRoot ["x", "b"]))
    ∧ ([Removal.dir ["runs", "a"]] : List Removal) ≠ [] := by
  constructor
  · rfl
  · simp

/-- C7 amended: a `DeleteRuns` or `RenameRun` on a run whose resolved
real path lies outside the configured root fails with a path-safety
error; the rename performs no filesystem operation at all, and the
deletion performs no removal for the offending run or any later id of the
batch — but removals already performed for earlier (safe) ids of the same
batch persist. -/
theorem c7_path_safety_amended :
    (∀ (resolve : Path → Path) (root : Path) (entries : List (String × Path))
      (ids : List String) (pre post : List Path) (bad : Path),
      (uniqueNonEmptyStrings ids).filterMap (lookupRun entries) = pre ++ bad :: post →
      (∀ f ∈ pre, isSubpath (resolve root) ((resolve f).dropLast) = true) →
      isSubpath (resolve root) ((resolve bad).dropLast) = false →
      DeleteRuns resolve root entries ids =
        (pre.length, pre.map (removalOf resolve (resolve root)),
          some (DelErr.outsideRoot ((resolve bad).dropLast))))
    ∧ (∀ (resolve : Path → Path) (root : Path) (entries : List (String × Path))
      (targetExists : Path → Bool) (id newName : String) (abs : Path) (nm : String),
      strTrim id ≠ "" →
      normalizeRunName newName = some nm →
      lookupRun entries (strTrim id) = some abs →
      isSubpath (resolve root) ((resolve abs).dropLast) = false →
      RenameRun resolve root entries targetExists id newName =
        (none, some (RenErr.outsideRoot ((resolve abs).dropLast)))) :=
  ⟨fun resolve root entries ids pre post bad h1 h2 h3 =>
    deleteRuns_amended resolve root entries ids pre post bad h1 h2 h3,
   fun resolve root entries targetExists id newName abs nm h1 h2 h3 h4 =>
    renameRun_amended resolve root entries targetExists id newName abs nm h1 h2 h3 h4⟩

theorem c7_witness :
    DeleteRuns (fun p => p) ["runs"]
      [("bad", ["x", "b", "output.xml"]), ("good", ["runs", "a", "output.xml"])]
      ["bad", "good"] = (0, [], some (DelErr.outsideRoot ["x", "b"]))
    ∧ RenameRun (fun p => p) ["runs"] [("r1", ["out", "z", "output.xml"])]
      (fun _ => false) "r1" "newname" =
      (none, some (RenErr.outsideRoot ["out", "z"])) := by
  constructor
  · exact c7_path_safety_amended.1 (fun p => p) ["runs"]
      [("bad", ["x", "b", "output.xml"]), ("good", ["runs", "a", "output.xml"])]
      ["bad", "good"] [] [["runs", "a", "output.xml"]] ["x", "b", "output.xml"]
      (by decide) (by decide) (by decide)
  · exact c7_path_safety_amended.2 (fun p => p) ["runs"] [("r1", ["out", "z", "output.xml"])]
      (fun _ => false) "r1" "newname" ["out", "z", "output.xml"] "newname"
      (by decide) (by decide) (by decide) (by decide)

end Store

namespace Store

theorem mem_uniqueGo : ∀ (ids : List String) (seen : List String) (x : String),
    x ∈ uniqueGo seen ids → (∃ id ∈ ids, x = strTrim id) ∧ x ≠ "" := by
  intro ids
  induction ids with
  | nil => intro seen x hx; simp [uniqueGo] at hx
  | cons i rest ih =>
    intro seen x hx
    by_cases h1 : strTrim i = ""
    · rw [uniqueGo, if_pos h1] at hx
      obtain ⟨⟨id, hid, heq⟩, hne⟩ := ih seen x hx
      exact ⟨⟨id, List.mem_cons_of_mem i hid, heq⟩, hne⟩
    · rw [uniqueGo, if_neg h1] at hx
      by_cases h2 : strTrim i ∈ seen
      · rw [if_pos h2] at hx
        obtain ⟨⟨id, hid, heq⟩, hne⟩ := ih seen x hx
        exact ⟨⟨id, List.mem_cons_of_mem i hid, heq⟩, hne⟩
      · rw [if_neg h2] at hx
        rcases List.mem_cons.mp hx with heq | hx'
        · exact ⟨⟨i, List.mem_cons_self i rest, heq⟩, heq ▸ h1⟩
        · obtain ⟨⟨id, hid, heq⟩, hne⟩ := ih (strTrim i :: seen) x hx'
          exact ⟨⟨id, List.mem_cons_of_mem i hid, heq⟩, hne⟩

theorem uniqueGo_append_absorb : ∀ (ids : List String) (seen : List String) (j : String),
    (strTrim j = "" ∨ strTrim j ∈ seen ∨ strTrim j ∈ uniqueGo seen ids) →
    uniqueGo seen (ids ++ [j]) = uniqueGo seen ids := by
  intro ids
  induction ids with
  | nil =>
    intro seen j hj
    rcases hj with h | h | h
    · simp [uniqueGo, h]
    · simp [uniqueGo, h]
    · simp [uniqueGo] at h
  | cons i rest ih =>
    intro seen j hj
    rw [List.cons_append]
    by_cases h1 : strTrim i = ""
    · rw [uniqueGo, if_pos h1, uniqueGo, if_pos h1]
      apply ih
      rcases hj with h | h | h
      · exact Or.inl h
      · exact Or.inr (Or.inl h)
      · rw [uniqueGo, if_pos h1] at h
        exact Or.inr (Or.inr h)
    · by_cases h2 : strTrim i ∈ seen
      · rw [uniqueGo, if_neg h1, if_pos h2, uniqueGo, if_neg h1, if_pos h2]
        apply ih
        rcases hj with h | h | h
        · exact Or.inl h
        · exact Or.inr (Or.inl h)
        · rw [uniqueGo, if_neg h1, if_pos h2] at h
          exact Or.inr (Or.inr h)
      · rw [uniqueGo, if_neg h1, if_neg h2, uniqueGo, if_neg h1, if_neg h2]
        congr 1
        apply ih
        rcases hj with h | h | h
        · exact Or.inl h
        · exact Or.inr (Or.inl (List.mem_cons_of_mem _ h))
        · rw [uniqueGo, if_neg h1, if_neg h2] at h
          rcases List.mem_cons.mp h with heq | h'
          · exact Or.inr (Or.inl (heq ▸ List.mem_cons_self _ _))
          · exact Or.inr (Or.inr h')

theorem uniqueGo_append_new : ∀ (ids : List String) (seen : List String) (j : String),
    strTrim j ≠ "" → strTrim j ∉ seen → strTrim j ∉ uniqueGo seen ids →
    uniqueGo seen (ids ++ [j]) = uniqueGo seen ids ++ [strTrim j] := by
  intro ids
  induction ids with
  | nil =>
    intro seen j h1 h2 _
    simp [uniqueGo, h1, h2]
  | cons i rest ih =>
    intro seen j h1 h2 h3
    rw [List.cons_append]
    by_cases hi1 : strTrim i = ""
    · rw [uniqueGo, if_pos hi1, uniqueGo, if_pos hi1]
      rw [uniqueGo, if_pos hi1] at h3
      exact ih seen j h1 h2 h3
    · by_cases hi2 : strTrim i ∈ seen
      · rw [uniqueGo, if_neg hi1, if_pos hi2, uniqueGo, if_neg hi1, if_pos hi2]
        rw [uniqueGo, if_neg hi1, if_pos hi2] at h3
        exact ih seen j h1 h2 h3
      · rw [uniqueGo, if_neg hi1, if_neg hi2, uniqueGo, if_neg hi1, if_neg hi2]
        rw [uniqueGo, if_neg hi1, if_neg hi2] at h3
        have hne : strTrim j ≠ strTrim i := fun he => h3 (he ▸ List.mem_cons_self _ _)
        have h3' : strTrim j ∉ uniqueGo (strTrim i :: seen) rest :=
          fun hm => h3 (List.mem_cons_of_mem _ hm)
        have h2' : strTrim j ∉ strTrim i :: seen := by
          intro hm
          rcases List.mem_cons.mp hm with he | hm'
          · exact hne he
          · exact h2 hm'
        rw [List.cons_append, ih (strTrim i :: seen) j h1 h2' h3']

theorem deleteLoop_count (resolve : Path → Path) (rootReal : Path) :
    ∀ (files : List Path) (d : Nat) (acc : List Removal),
    (deleteLoop resolve rootReal files d acc).2.1.length + d =
      (deleteLoop resolve rootReal files d acc).1 + acc.length := by
  intro files
  induction files with
  | nil => intro d acc; simp only [deleteLoop]; omega
  | cons f rest ih =>
    intro d acc
    by_cases h1 : isSubpath rootReal ((resolve f).dropLast) = true
    · by_cases h2 : samePath rootReal ((resolve f).dropLast) = true
      · have h3 := isSubpath_of_samePath_dropLast h2
        rw [show deleteLoop resolve rootReal (f :: rest) d acc =
            deleteLoop resolve rootReal rest (d + 1) (acc ++ [Removal.file (resolve f)]) from by
          simp [deleteLoop, h1, h2, h3]]
        have := ih (d + 1) (acc ++ [Removal.file (resolve f)])
        simp only [List.length_append, List.length_singleton] at this
        omega
      · rw [show deleteLoop resolve rootReal (f :: rest) d acc =
            deleteLoop resolve rootReal rest (d + 1)
              (acc ++ [Removal.dir ((resolve f).dropLast)]) from by
          simp [deleteLoop, h1, h2]]
        have := ih (d + 1) (acc ++ [Removal.dir ((resolve f).dropLast)])
        simp only [List.length_append, List.length_singleton] at this
        omega
    · rw [show deleteLoop resolve rootReal (f :: rest) d acc =
          (d, acc, some (DelErr.outsideRoot ((resolve f).dropLast))) from by
        simp [deleteLoop, h1]]
      exact Nat.add_comm acc.length d

/-- C10: `DeleteRuns` trims, drops blank and duplicate ids, silently
skips unknown ids instead of failing, and returns the number of removals
actually performed; a batch of only blank or unknown ids returns
`(0, nil)` with no filesystem effect. -/
theorem c10_delete_runs_sanitizing :
    (∀ (resolve : Path → Path) (root : Path) (entries : List (String × Path))
      (ids : List String),
      (∀ id ∈ ids, strTrim id = "" ∨ lookupRun entries (strTrim id) = none) →
      DeleteRuns resolve root entries ids = (0, [], none))
    ∧ (∀ (resolve : Path → Path) (root : Path) (entries : List (String × Path))
      (ids : List String) (j : String),
      (strTrim j = "" ∨ strTrim j ∈ uniqueNonEmptyStrings ids ∨
        lookupRun entries (strTrim j) = none) →
      DeleteRuns resolve root entries (ids ++ [j]) = DeleteRuns resolve root entries ids)
    ∧ (∀ (resolve : Path → Path) (root : Path) (entries : List (String × Path))
      (ids : List String),
      (DeleteRuns resolve root entries ids).1 =
        (DeleteRuns resolve root entries ids).2.1.length) := by
  refine ⟨?_, ?_, ?_⟩
  · intro resolve root entries ids hall
    unfold DeleteRuns
    by_cases hlen : (uniqueNonEmptyStrings ids).length = 0
    · rw [if_pos hlen]
    · rw [if_neg hlen]
      have hnil : (uniqueNonEmptyStrings ids).filterMap (lookupRun entries) = [] := by
        rw [List.filterMap_eq_nil_iff]
        intro x hx
        obtain ⟨⟨id, hid, heq⟩, hne⟩ := mem_uniqueGo ids [] x hx
        rcases hall id hid with h | h
        · exact absurd (heq.trans h) hne
        · rw [heq]
          exact h
      rw [hnil]
      rfl
  · intro resolve root entries ids j hj
    by_cases habs : strTrim j = "" ∨ strTrim j ∈ uniqueNonEmptyStrings ids
    · unfold DeleteRuns
      rw [show uniqueNonEmptyStrings (ids ++ [j]) = uniqueNonEmptyStrings ids from
        uniqueGo_append_absorb ids [] j (by
          rcases habs with h | h
          · exact Or.inl h
          · exact Or.inr (Or.inr h))]
    · push_neg at habs
      obtain ⟨hne, hnotmem⟩ := habs
      have hlook : lookupRun entries (strTrim j) = none := by
        rcases hj with h | h | h
        · exact absurd h hne
        · exact absurd h hnotmem
        · exact h
      have hnew : uniqueNonEmptyStrings (ids ++ [j]) =
          uniqueNonEmptyStrings ids ++ [strTrim j] :=
        uniqueGo_append_new ids [] j hne (by simp) hnotmem
      have hfm : (uniqueNonEmptyStrings ids ++ [strTrim j]).filterMap (lookupRun entries) =
          (uniqueNonEmptyStrings ids).filterMap (lookupRun entries) := by
        rw [List.filterMap_append]
        simp [List.filterMap_cons, hlook]
      unfold DeleteRuns
      rw [hnew, hfm]
      by_cases hlen : (uniqueNonEmptyStrings ids).length = 0
      · rw [if_pos hlen,
          if_neg (show ¬((uniqueNonEmptyStrings ids ++ [strTrim j]).length = 0) from by
            simp [List.length_append])]
        rw [List.length_eq_zero] at hlen
        rw [hlen]
        rfl
      · rw [if_neg hlen,
          if_neg (show ¬((uniqueNonEmptyStrings ids ++ [strTrim j]).length = 0) from by
            simp [List.length_append])]
  · intro resolve root entries ids
    unfold DeleteRuns
    by_cases hlen : (uniqueNonEmptyStrings ids).length = 0
    · rw [if_pos hlen]
      rfl
    · rw [if_neg hlen]
      have := deleteLoop_count resolve (resolve root)
        ((uniqueNonEmptyStrings ids).filterMap (lookupRun entries)) 0 []
      simp only [List.length_nil] at this
      omega

end Store

namespace Store

theorem c10_witness :
    DeleteRuns (fun p => p) ["runs"] [("known", ["runs", "a", "output.xml"])]
      ["", "  ", "unknown"] = (0, [], none) :=
  c10_delete_runs_sanitizing.1 (fun p => p) ["runs"]
    [("known", ["runs", "a", "output.xml"])] ["", "  ", "unknown"] (by decide)

end Store
